import Mathlib

/-!
A verification development for a lossless concrete-syntax-tree (CST) engine:
parsing source text into a whitespace-annotated immutable tree, visitor and
transformer traversal, copy-on-write node update, exact code generation and
deep structural equality.

The repository ships only documentation for the core engine, so the engine
itself is modelled here from its specification: an immutable node model in
which every node carries a leading and a trailing whitespace slot, a
recursive-descent parser that attaches every whitespace byte to exactly one
node, a depth-first traversal engine with enter/leave hooks and early-stop
signalling, and a code generator that concatenates, in tree order, each
node's leading whitespace, semantic text and trailing whitespace.
-/

namespace LibCST

/-- Modelled from the spec: the closed, grammar-defined set of node kinds
(§3 "Node": module, class-definition, function-definition, binary-operation,
name, literal, parameter-list, ...). -/
inductive Kind where
  | name | integer | addOp | binop | annot | commaTok | param
  | parameters | returnStmt | ellipsisLit | block | functionDef
  | classDef | module
deriving DecidableEq, Repr

mutual

/-- Modelled from the spec: the CST node (§3). Each node has a kind, a fixed
set of named children appropriate to its kind (some optional, some ordered
sequences) and two formatting slots — leading and trailing whitespace text —
that exactly reproduce the bytes surrounding the node's semantic content.
The engine's concrete grammar fragment covers names, integer literals,
binary `+` operations, annotations (`:` or `->` marker plus an expression),
parameters with optional annotation and comma, return statements, `...`
statements, statement blocks, function definitions, class definitions and
modules. -/
inductive Node where
  | name (lead trail value : String)
  | integer (lead trail value : String)
  | addOp (lead trail : String)
  | binop (lead trail : String) (left op right : Node)
  | annot (lead trail marker : String) (expr : Node)
  | commaTok (lead trail : String)
  | param (lead trail : String) (pname : Node) (ann : ONode) (comma : ONode)
  | parameters (lead trail : String) (items : NodeList)
  | returnStmt (lead trail : String) (value : ONode)
  | ellipsisLit (lead trail : String)
  | block (lead trail : String) (stmts : NodeList)
  | functionDef (lead trail : String) (fname params : Node) (returns : ONode) (body : Node)
  | classDef (lead trail : String) (cname : Node) (body : Node)
  | module (lead trail : String) (stmts : NodeList)
deriving DecidableEq, Repr

/-- Modelled from the spec: an optional child slot of a node (§3: "some
optional"). -/
inductive ONode where
  | none
  | some (n : Node)
deriving DecidableEq, Repr

/-- Modelled from the spec: an ordered-sequence child slot of a node (§3:
"some ordered sequences"). -/
inductive NodeList where
  | nil
  | cons (n : Node) (rest : NodeList)
deriving DecidableEq, Repr

end

/-- The kind tag of a node. -/
def kindOf : Node → Kind
  | .name .. => .name
  | .integer .. => .integer
  | .addOp .. => .addOp
  | .binop .. => .binop
  | .annot .. => .annot
  | .commaTok .. => .commaTok
  | .param .. => .param
  | .parameters .. => .parameters
  | .returnStmt .. => .returnStmt
  | .ellipsisLit .. => .ellipsisLit
  | .block .. => .block
  | .functionDef .. => .functionDef
  | .classDef .. => .classDef
  | .module .. => .module

/-- The leading-whitespace slot of a node. -/
def leadOf : Node → String
  | .name l .. | .integer l .. | .addOp l .. | .binop l .. | .annot l ..
  | .commaTok l .. | .param l .. | .parameters l .. | .returnStmt l ..
  | .ellipsisLit l .. | .block l .. | .functionDef l .. | .classDef l ..
  | .module l .. => l

/-- The trailing-whitespace slot of a node. -/
def trailOf : Node → String
  | .name _ t _ | .integer _ t _ | .addOp _ t | .binop _ t .. | .annot _ t ..
  | .commaTok _ t | .param _ t .. | .parameters _ t .. | .returnStmt _ t ..
  | .ellipsisLit _ t | .block _ t .. | .functionDef _ t .. | .classDef _ t ..
  | .module _ t .. => t

mutual

/-- Modelled from the spec: code generation (§4.5 `generate`): a depth-first,
in-order concatenation of every node's leading whitespace, semantic text
(literal tokens for leaf nodes), recursively generated child text, and
trailing whitespace. -/
def gen : Node → String
  | .name l t v => l ++ v ++ t
  | .integer l t v => l ++ v ++ t
  | .addOp l t => l ++ "+" ++ t
  | .binop l t a op b => l ++ gen a ++ gen op ++ gen b ++ t
  | .annot l t m e => l ++ m ++ gen e ++ t
  | .commaTok l t => l ++ "," ++ t
  | .param l t nm an c => l ++ gen nm ++ genO an ++ genO c ++ t
  | .parameters l t items => l ++ genL items ++ t
  | .returnStmt l t v => l ++ "return" ++ genO v ++ t
  | .ellipsisLit l t => l ++ "..." ++ t
  | .block l t ss => l ++ genL ss ++ t
  | .functionDef l t nm ps r b =>
      l ++ "def" ++ gen nm ++ "(" ++ gen ps ++ ")" ++ genO r ++ ":" ++ gen b ++ t
  | .classDef l t nm b => l ++ "class" ++ gen nm ++ ":" ++ gen b ++ t
  | .module l t ss => l ++ genL ss ++ t

/-- Generated text of an optional child: empty when absent. -/
def genO : ONode → String
  | .none => ""
  | .some n => gen n

/-- Generated text of a sequence of children, in order. -/
def genL : NodeList → String
  | .nil => ""
  | .cons n rest => gen n ++ genL rest

end

/-- Modelled from the spec: `deep_equals` (§4.5) performs a structural
comparison — kind plus all field values, recursively, whitespace included —
and never consults object identity. The derived decidable equality of the
node type is exactly this recursive field-by-field comparison. -/
def deep_equals (a b : Node) : Bool := decide (a = b)

theorem deep_equals_iff (a b : Node) : deep_equals a b = true ↔ a = b := by
  simp [deep_equals]

/-! ## Whitespace accounting -/

/-- Modelled from the spec: a whitespace byte of the source (space or
newline in this grammar fragment). -/
def isWs (c : Char) : Bool := c == ' ' || c == '\n'

/-- A character that may appear in an identifier. -/
def identChar (c : Char) : Bool := c.isAlpha || c.isDigit || c == '_'

/-- A character that may start an identifier. -/
def identStart (c : Char) : Bool := c.isAlpha || c == '_'

/-- The number of whitespace bytes in a character sequence. -/
def countWs (l : List Char) : Nat := (l.filter isWs).length

/-- Every character of the string is whitespace. -/
def allWs (s : String) : Bool := s.data.all isWs

/-- No character of the string is whitespace. -/
def wsFree (s : String) : Bool := s.data.all (fun c => !isWs c)

mutual

/-- Parser output invariant: every leading/trailing slot holds only
whitespace and every semantic text field holds no whitespace. -/
def wsInv : Node → Bool
  | .name l t v => allWs l && allWs t && wsFree v
  | .integer l t v => allWs l && allWs t && wsFree v
  | .addOp l t => allWs l && allWs t
  | .binop l t a op b => allWs l && allWs t && wsInv a && wsInv op && wsInv b
  | .annot l t m e => allWs l && allWs t && wsFree m && wsInv e
  | .commaTok l t => allWs l && allWs t
  | .param l t nm an c => allWs l && allWs t && wsInv nm && wsInvO an && wsInvO c
  | .parameters l t items => allWs l && allWs t && wsInvL items
  | .returnStmt l t v => allWs l && allWs t && wsInvO v
  | .ellipsisLit l t => allWs l && allWs t
  | .block l t ss => allWs l && allWs t && wsInvL ss
  | .functionDef l t nm ps r b =>
      allWs l && allWs t && wsInv nm && wsInv ps && wsInvO r && wsInv b
  | .classDef l t nm b => allWs l && allWs t && wsInv nm && wsInv b
  | .module l t ss => allWs l && allWs t && wsInvL ss

/-- `wsInv` on an optional child. -/
def wsInvO : ONode → Bool
  | .none => true
  | .some n => wsInv n

/-- `wsInv` on a sequence of children. -/
def wsInvL : NodeList → Bool
  | .nil => true
  | .cons n rest => wsInv n && wsInvL rest

end

mutual

/-- Modelled from the spec (§8 "Whitespace non-duplication"): the sum over
all nodes of a tree of the lengths of their attributed leading and trailing
whitespace slots. -/
def wsSum : Node → Nat
  | .name l t _ => l.length + t.length
  | .integer l t _ => l.length + t.length
  | .addOp l t => l.length + t.length
  | .binop l t a op b => l.length + t.length + wsSum a + wsSum op + wsSum b
  | .annot l t _ e => l.length + t.length + wsSum e
  | .commaTok l t => l.length + t.length
  | .param l t nm an c => l.length + t.length + wsSum nm + wsSumO an + wsSumO c
  | .parameters l t items => l.length + t.length + wsSumL items
  | .returnStmt l t v => l.length + t.length + wsSumO v
  | .ellipsisLit l t => l.length + t.length
  | .block l t ss => l.length + t.length + wsSumL ss
  | .functionDef l t nm ps r b =>
      l.length + t.length + wsSum nm + wsSum ps + wsSumO r + wsSum b
  | .classDef l t nm b => l.length + t.length + wsSum nm + wsSum b
  | .module l t ss => l.length + t.length + wsSumL ss

/-- `wsSum` on an optional child. -/
def wsSumO : ONode → Nat
  | .none => 0
  | .some n => wsSum n

/-- `wsSum` on a sequence of children. -/
def wsSumL : NodeList → Nat
  | .nil => 0
  | .cons n rest => wsSum n + wsSumL rest

end

/-! ## The parser

Modelled from the spec (§4.1, §4.2, §6): a recursive-descent parser over the
character sequence of the source, with independently invokable entry points
for a module and for a single expression. Each token's preceding whitespace
run is attached as the leading-whitespace slot of the node built for that
token (the deterministic ownership convention of §3); whitespace at end of
input becomes the trailing slot of the root. A single syntax error aborts
the whole parse: every parsing function returns an `Option` and no partial
tree is ever produced. The loops carry explicit fuel; entry points supply
fuel larger than any possible call depth for their input. -/

/-- Parse one atom: an integer literal or a name, owning the whitespace run
before it as its leading slot. -/
def parseAtom (cs : List Char) : Option (Node × List Char) :=
  let ws := cs.takeWhile isWs
  let r := cs.dropWhile isWs
  match r with
  | [] => .none
  | c :: _ =>
    if c.isDigit then
      .some (.integer (String.mk ws) "" (String.mk (r.takeWhile Char.isDigit)),
             r.dropWhile Char.isDigit)
    else if identStart c then
      .some (.name (String.mk ws) "" (String.mk (r.takeWhile identChar)),
             r.dropWhile identChar)
    else .none

mutual

/-- Parse a left-associative chain of `+` operations continuing `left`.
Whitespace before each `+` becomes the operator node's leading slot; the
remainder (including any following whitespace) is left unconsumed when no
`+` follows. -/
def parseOps : Nat → Node → List Char → Option (Node × List Char)
  | 0, _, _ => .none
  | fuel + 1, left, cs =>
    match cs.dropWhile isWs with
    | '+' :: r' =>
      match parseAtom r' with
      | .none => .none
      | .some (a, r'') =>
          parseOps fuel
            (.binop "" "" left (.addOp (String.mk (cs.takeWhile isWs)) "") a) r''
    | _ => .some (left, cs)

/-- Parse a full expression: an atom followed by a `+` chain. -/
def parseExprF : Nat → List Char → Option (Node × List Char)
  | 0, _ => .none
  | fuel + 1, cs =>
    match parseAtom cs with
    | .none => .none
    | .some (a, r) => parseOps fuel a r

/-- Parse the parameter items of a function definition up to and including
the closing parenthesis; returns the items, the whitespace owned by the
parameter list's trailing slot (the run before `)`), and the remainder. -/
def parseParamItems : Nat → List Char → Option (NodeList × String × List Char)
  | 0, _ => .none
  | fuel + 1, cs =>
    let ws := cs.takeWhile isWs
    match cs.dropWhile isWs with
    | ')' :: r' => .some (.nil, String.mk ws, r')
    | c :: _ =>
      if identStart c then
        let r := cs.dropWhile isWs
        let nm := Node.name (String.mk ws) "" (String.mk (r.takeWhile identChar))
        let r1 := r.dropWhile identChar
        match r1.dropWhile isWs with
        | ':' :: r3 =>
          match parseExprF fuel r3 with
          | .none => .none
          | .some (e, r4) =>
              parseParamEnd fuel nm
                (.some (.annot (String.mk (r1.takeWhile isWs)) "" ":" e)) r4
        | _ => parseParamEnd fuel nm .none r1
      else .none
    | [] => .none

/-- Finish one parameter after its name and optional annotation: an optional
comma continues the list, a closing parenthesis ends it. -/
def parseParamEnd : Nat → Node → ONode → List Char → Option (NodeList × String × List Char)
  | 0, _, _, _ => .none
  | fuel + 1, nm, an, cs =>
    let ws := cs.takeWhile isWs
    match cs.dropWhile isWs with
    | ',' :: r' =>
      match parseParamItems fuel r' with
      | .none => .none
      | .some (items, ptrail, rest) =>
          .some (.cons (.param "" "" nm an (.some (.commaTok (String.mk ws) ""))) items,
                 ptrail, rest)
    | ')' :: r' => .some (.cons (.param "" "" nm an .none) .nil, String.mk ws, r')
    | _ => .none

/-- Parse a simple (non-definition) statement whose leading whitespace is
`lead`: an ellipsis statement, a return statement with an optional same-line
value, or an expression statement. -/
def parseSimpleStmt : Nat → String → List Char → Option (Node × List Char)
  | 0, _, _ => .none
  | fuel + 1, lead, cs =>
    match cs with
    | '.' :: '.' :: '.' :: r => .some (.ellipsisLit lead "", r)
    | c :: _ =>
      if identStart c then
        let w := cs.takeWhile identChar
        let r := cs.dropWhile identChar
        if w = "def".data then .none
        else if w = "return".data then
          let ws2 := r.takeWhile isWs
          match r.dropWhile isWs with
          | c2 :: _ =>
            if !ws2.contains '\n' && (c2.isDigit || identStart c2) then
              match parseExprF fuel r with
              | .none => .none
              | .some (e, r3) => .some (.returnStmt lead "" (.some e), r3)
            else .some (.returnStmt lead "" .none, r)
          | [] => .some (.returnStmt lead "" .none, r)
        else parseOps fuel (.name lead "" (String.mk w)) r
      else if c.isDigit then
        parseOps fuel
          (.integer lead "" (String.mk (cs.takeWhile Char.isDigit)))
          (cs.dropWhile Char.isDigit)
      else .none
    | [] => .none

/-- Parse the remainder of a function definition after `def NAME ( params )
returns :` — the suite — and assemble the function-definition node. The
whitespace after the colon (same-line or newline plus indentation) is owned
by the leading slot of the statement inside the block. -/
def parseFnBody : Nat → String → Node → Node → ONode → List Char → Option (Node × List Char)
  | 0, _, _, _, _, _ => .none
  | fuel + 1, lead, nm, ps, rets, cs =>
    match parseSimpleStmt fuel (String.mk (cs.takeWhile isWs)) (cs.dropWhile isWs) with
    | .none => .none
    | .some (st, rest) =>
        .some (.functionDef lead "" nm ps rets (.block "" "" (.cons st .nil)), rest)

/-- Parse a function definition; `cs` starts right after the `def` keyword.
The name must follow separated only by whitespace and be glued to `(`; the
colon must be glued to `)` or to the return annotation's expression. -/
def parseFuncdef : Nat → String → List Char → Option (Node × List Char)
  | 0, _, _ => .none
  | fuel + 1, lead, cs =>
    let ws1 := cs.takeWhile isWs
    let r1 := cs.dropWhile isWs
    match r1 with
    | c :: _ =>
      if identStart c then
        let nm := Node.name (String.mk ws1) "" (String.mk (r1.takeWhile identChar))
        match r1.dropWhile identChar with
        | '(' :: r3 =>
          match parseParamItems fuel r3 with
          | .none => .none
          | .some (items, ptrail, r4) =>
            let ps := Node.parameters "" ptrail items
            let ws5 := r4.takeWhile isWs
            match r4.dropWhile isWs with
            | '-' :: '>' :: r6 =>
              match parseExprF fuel r6 with
              | .none => .none
              | .some (e, r7) =>
                match r7 with
                | ':' :: r8 =>
                    parseFnBody fuel lead nm ps
                      (.some (.annot (String.mk ws5) "" "->" e)) r8
                | _ => .none
            | ':' :: r6 =>
              if ws5 = [] then parseFnBody fuel lead nm ps .none r6 else .none
            | _ => .none
        | _ => .none
      else .none
    | [] => .none

/-- Parse one statement whose leading whitespace is `lead`: a function
definition when the first word is `def`, a simple statement otherwise. -/
def parseStmt : Nat → String → List Char → Option (Node × List Char)
  | 0, _, _ => .none
  | fuel + 1, lead, cs =>
    if cs.takeWhile identChar = "def".data then
      parseFuncdef fuel lead (cs.dropWhile identChar)
    else parseSimpleStmt fuel lead cs

/-- Parse a sequence of statements up to end of input; returns the
statements and the whitespace run at end of input (the module's trailing
slot). -/
def parseStmts : Nat → List Char → Option (NodeList × String)
  | 0, _ => .none
  | fuel + 1, cs =>
    let ws := cs.takeWhile isWs
    match cs.dropWhile isWs with
    | [] => .some (.nil, String.mk ws)
    | _ =>
      match parseStmt fuel (String.mk ws) (cs.dropWhile isWs) with
      | .none => .none
      | .some (st, r') =>
        match parseStmts fuel r' with
        | .none => .none
        | .some (ss, trail) => .some (.cons st ss, trail)

end

/-- Replace the trailing-whitespace slot of a node. -/
def setTrail : Node → String → Node
  | .name l _ v, t => .name l t v
  | .integer l _ v, t => .integer l t v
  | .addOp l _, t => .addOp l t
  | .binop l _ a op b, t => .binop l t a op b
  | .annot l _ m e, t => .annot l t m e
  | .commaTok l _, t => .commaTok l t
  | .param l _ nm an c, t => .param l t nm an c
  | .parameters l _ items, t => .parameters l t items
  | .returnStmt l _ v, t => .returnStmt l t v
  | .ellipsisLit l _, t => .ellipsisLit l t
  | .block l _ ss, t => .block l t ss
  | .functionDef l _ nm ps r b, t => .functionDef l t nm ps r b
  | .classDef l _ nm b, t => .classDef l t nm b
  | .module l _ ss, t => .module l t ss

/-- Modelled from the spec (§6): the module entry point,
`parse-module(text) → root node or error`. Whitespace at end of input is
owned by the module's trailing slot. -/
def parseModule (S : String) : Option Node :=
  match parseStmts (S.data.length + 16) S.data with
  | .none => .none
  | .some (ss, trail) => .some (.module "" trail ss)

/-- Modelled from the spec (§6): the expression entry point,
`parse-expression(text) → single expression node or error`. The whole input
must be one expression; whitespace after it is owned by the root node's
trailing slot. -/
def parseExpression (S : String) : Option Node :=
  match parseExprF (S.data.length + 16) S.data with
  | .none => .none
  | .some (e, rest) =>
    match rest.dropWhile isWs with
    | [] => .some (setTrail e (String.mk (rest.takeWhile isWs)))
    | _ => .none

/-! ## The traversal engine

Modelled from the spec (§4.4): depth-first, source-order traversal with an
enter hook invoked before any child and an exit (leave) hook invoked after
all children. The enter hook may signal "do not descend" by returning
`some false` (returning `none` — no value — or `some true` permits
descent); the leave hook receives the original node and the updated node
(reflecting changes already applied to its children) and returns the node
to use going forward. The traversal is instrumented with an event trace
recording every hook invocation. -/

/-- A hook invocation observed during a traversal: the enter hook or the
exit (leave) hook firing on a node. -/
inductive Event where
  | enter (n : Node)
  | exit (n : Node)
deriving DecidableEq, Repr

/-- Modelled from the spec: a caller-supplied visitor/transformer — an
enter hook returning an updated accumulator and an optional descent signal,
and a leave hook receiving the original and the updated node and returning
the replacement (a read-only visitor is the special case whose leave hook
returns the updated node unchanged). -/
structure Transformer (σ : Type) where
  enter : σ → Node → σ × Option Bool
  leave : σ → Node → Node → σ × Node

/-- One node's hook protocol around its children's traversal (`kids`): the
enter hook fires; on `some false` the children are skipped and the leave
hook receives the node with children unchanged; otherwise the children are
traversed and the leave hook receives the reconstructed node. -/
def step {σ : Type} (t : Transformer σ) (s : σ) (n : Node)
    (kids : σ → σ × Node × List Event) : σ × Node × List Event :=
  let p := t.enter s n
  if p.2 = Option.some false then
    let q := t.leave p.1 n n
    (q.1, q.2, [Event.enter n, Event.exit n])
  else
    let r := kids p.1
    let q := t.leave r.1 n r.2.1
    (q.1, q.2, Event.enter n :: (r.2.2 ++ [Event.exit n]))

mutual

/-- Depth-first traversal of one node: enter hook, children in declared
source order (unless suppressed), leave hook; children are reconstructed
copy-on-write from the children's traversal results. -/
def visitNode {σ : Type} (t : Transformer σ) (s : σ) : Node → σ × Node × List Event
  | .name l tr v => step t s (.name l tr v) (fun s' => (s', .name l tr v, []))
  | .integer l tr v => step t s (.integer l tr v) (fun s' => (s', .integer l tr v, []))
  | .addOp l tr => step t s (.addOp l tr) (fun s' => (s', .addOp l tr, []))
  | .commaTok l tr => step t s (.commaTok l tr) (fun s' => (s', .commaTok l tr, []))
  | .ellipsisLit l tr => step t s (.ellipsisLit l tr) (fun s' => (s', .ellipsisLit l tr, []))
  | .binop l tr a op b => step t s (.binop l tr a op b) (fun s' =>
      let ra := visitNode t s' a
      let ro := visitNode t ra.1 op
      let rb := visitNode t ro.1 b
      (rb.1, .binop l tr ra.2.1 ro.2.1 rb.2.1, ra.2.2 ++ ro.2.2 ++ rb.2.2))
  | .annot l tr m e => step t s (.annot l tr m e) (fun s' =>
      let re := visitNode t s' e
      (re.1, .annot l tr m re.2.1, re.2.2))
  | .param l tr nm an c => step t s (.param l tr nm an c) (fun s' =>
      let rn := visitNode t s' nm
      let ra := visitOpt t rn.1 an
      let rc := visitOpt t ra.1 c
      (rc.1, .param l tr rn.2.1 ra.2.1 rc.2.1, rn.2.2 ++ ra.2.2 ++ rc.2.2))
  | .parameters l tr items => step t s (.parameters l tr items) (fun s' =>
      let ri := visitList t s' items
      (ri.1, .parameters l tr ri.2.1, ri.2.2))
  | .returnStmt l tr v => step t s (.returnStmt l tr v) (fun s' =>
      let rv := visitOpt t s' v
      (rv.1, .returnStmt l tr rv.2.1, rv.2.2))
  | .block l tr ss => step t s (.block l tr ss) (fun s' =>
      let rs := visitList t s' ss
      (rs.1, .block l tr rs.2.1, rs.2.2))
  | .functionDef l tr nm ps r b => step t s (.functionDef l tr nm ps r b) (fun s' =>
      let rn := visitNode t s' nm
      let rp := visitNode t rn.1 ps
      let rr := visitOpt t rp.1 r
      let rb := visitNode t rr.1 b
      (rb.1, .functionDef l tr rn.2.1 rp.2.1 rr.2.1 rb.2.1,
       rn.2.2 ++ rp.2.2 ++ rr.2.2 ++ rb.2.2))
  | .classDef l tr nm b => step t s (.classDef l tr nm b) (fun s' =>
      let rn := visitNode t s' nm
      let rb := visitNode t rn.1 b
      (rb.1, .classDef l tr rn.2.1 rb.2.1, rn.2.2 ++ rb.2.2))
  | .module l tr ss => step t s (.module l tr ss) (fun s' =>
      let rs := visitList t s' ss
      (rs.1, .module l tr rs.2.1, rs.2.2))

/-- Traversal of an optional child. -/
def visitOpt {σ : Type} (t : Transformer σ) (s : σ) : ONode → σ × ONode × List Event
  | .none => (s, .none, [])
  | .some n =>
      let r := visitNode t s n
      (r.1, .some r.2.1, r.2.2)

/-- Traversal of a sequence of children, in order, threading the
accumulator left to right. -/
def visitList {σ : Type} (t : Transformer σ) (s : σ) : NodeList → σ × NodeList × List Event
  | .nil => (s, .nil, [])
  | .cons n rest =>
      let r := visitNode t s n
      let r' := visitList t r.1 rest
      (r'.1, .cons r.2.1 r'.2.1, r.2.2 ++ r'.2.2)

end

/-! ## The traversal engine with failing hooks

Modelled from the spec (§7): hooks may fail; a failure from any hook
propagates immediately and aborts the whole traversal — the engine catches
nothing and performs no partial reconstruction on failure. -/

/-- A transformer whose hooks may fail. -/
structure TransformerE (σ ε : Type) where
  enter : σ → Node → Except ε (σ × Option Bool)
  leave : σ → Node → Node → Except ε (σ × Node)

/-- One node's hook protocol with failing hooks: any hook failure is
returned as-is. -/
def stepE {σ ε : Type} (t : TransformerE σ ε) (s : σ) (n : Node)
    (kids : σ → Except ε (σ × Node)) : Except ε (σ × Node) :=
  match t.enter s n with
  | .error e => .error e
  | .ok p =>
    if p.2 = Option.some false then t.leave p.1 n n
    else
      match kids p.1 with
      | .error e => .error e
      | .ok r => t.leave r.1 n r.2

mutual

/-- Depth-first traversal with failing hooks. -/
def visitNodeE {σ ε : Type} (t : TransformerE σ ε) (s : σ) : Node → Except ε (σ × Node)
  | .name l tr v => stepE t s (.name l tr v) (fun s' => .ok (s', .name l tr v))
  | .integer l tr v => stepE t s (.integer l tr v) (fun s' => .ok (s', .integer l tr v))
  | .addOp l tr => stepE t s (.addOp l tr) (fun s' => .ok (s', .addOp l tr))
  | .commaTok l tr => stepE t s (.commaTok l tr) (fun s' => .ok (s', .commaTok l tr))
  | .ellipsisLit l tr => stepE t s (.ellipsisLit l tr) (fun s' => .ok (s', .ellipsisLit l tr))
  | .binop l tr a op b => stepE t s (.binop l tr a op b) (fun s' =>
      match visitNodeE t s' a with
      | .error e => .error e
      | .ok ra =>
        match visitNodeE t ra.1 op with
        | .error e => .error e
        | .ok ro =>
          match visitNodeE t ro.1 b with
          | .error e => .error e
          | .ok rb => .ok (rb.1, .binop l tr ra.2 ro.2 rb.2))
  | .annot l tr m e0 => stepE t s (.annot l tr m e0) (fun s' =>
      match visitNodeE t s' e0 with
      | .error e => .error e
      | .ok re => .ok (re.1, .annot l tr m re.2))
  | .param l tr nm an c => stepE t s (.param l tr nm an c) (fun s' =>
      match visitNodeE t s' nm with
      | .error e => .error e
      | .ok rn =>
        match visitOptE t rn.1 an with
        | .error e => .error e
        | .ok ra =>
          match visitOptE t ra.1 c with
          | .error e => .error e
          | .ok rc => .ok (rc.1, .param l tr rn.2 ra.2 rc.2))
  | .parameters l tr items => stepE t s (.parameters l tr items) (fun s' =>
      match visitListE t s' items with
      | .error e => .error e
      | .ok ri => .ok (ri.1, .parameters l tr ri.2))
  | .returnStmt l tr v => stepE t s (.returnStmt l tr v) (fun s' =>
      match visitOptE t s' v with
      | .error e => .error e
      | .ok rv => .ok (rv.1, .returnStmt l tr rv.2))
  | .block l tr ss => stepE t s (.block l tr ss) (fun s' =>
      match visitListE t s' ss with
      | .error e => .error e
      | .ok rs => .ok (rs.1, .block l tr rs.2))
  | .functionDef l tr nm ps r b => stepE t s (.functionDef l tr nm ps r b) (fun s' =>
      match visitNodeE t s' nm with
      | .error e => .error e
      | .ok rn =>
        match visitNodeE t rn.1 ps with
        | .error e => .error e
        | .ok rp =>
          match visitOptE t rp.1 r with
          | .error e => .error e
          | .ok rr =>
            match visitNodeE t rr.1 b with
            | .error e => .error e
            | .ok rb => .ok (rb.1, .functionDef l tr rn.2 rp.2 rr.2 rb.2))
  | .classDef l tr nm b => stepE t s (.classDef l tr nm b) (fun s' =>
      match visitNodeE t s' nm with
      | .error e => .error e
      | .ok rn =>
        match visitNodeE t rn.1 b with
        | .error e => .error e
        | .ok rb => .ok (rb.1, .classDef l tr rn.2 rb.2))
  | .module l tr ss => stepE t s (.module l tr ss) (fun s' =>
      match visitListE t s' ss with
      | .error e => .error e
      | .ok rs => .ok (rs.1, .module l tr rs.2))

/-- Traversal of an optional child with failing hooks. -/
def visitOptE {σ ε : Type} (t : TransformerE σ ε) (s : σ) : ONode → Except ε (σ × ONode)
  | .none => .ok (s, .none)
  | .some n =>
      match visitNodeE t s n with
      | .error e => .error e
      | .ok r => .ok (r.1, .some r.2)

/-- Traversal of a sequence of children with failing hooks. -/
def visitListE {σ ε : Type} (t : TransformerE σ ε) (s : σ) : NodeList → Except ε (σ × NodeList)
  | .nil => .ok (s, .nil)
  | .cons n rest =>
      match visitNodeE t s n with
      | .error e => .error e
      | .ok r =>
        match visitListE t r.1 rest with
        | .error e => .error e
        | .ok r' => .ok (r'.1, .cons r.2 r'.2)

end

/-! ## Copy-on-write update -/

/-- Modelled from the spec (§4.3): a set of field overrides for
`with_changes` — one optional override per declared field name; a field
left at `Option.none` is not overridden. Only the overrides matching the
node's kind take effect. -/
structure Changes where
  lead : Option String := Option.none
  trail : Option String := Option.none
  value : Option String := Option.none
  marker : Option String := Option.none
  left : Option Node := Option.none
  op : Option Node := Option.none
  right : Option Node := Option.none
  expr : Option Node := Option.none
  nm : Option Node := Option.none
  ann : Option ONode := Option.none
  comma : Option ONode := Option.none
  items : Option NodeList := Option.none
  params : Option Node := Option.none
  returns : Option ONode := Option.none
  retValue : Option ONode := Option.none
  body : Option Node := Option.none
  stmts : Option NodeList := Option.none
deriving DecidableEq

/-- The override set that overrides nothing. -/
def Changes.empty : Changes := {}

/-- Modelled from the spec (§4.3): `with_changes(node, field_overrides)`
returns a new node of the same kind with the specified fields replaced and
every other field taken unchanged from the original; the original node is
not mutated. -/
def with_changes (n : Node) (c : Changes) : Node :=
  match n with
  | .name l t v => .name (c.lead.getD l) (c.trail.getD t) (c.value.getD v)
  | .integer l t v => .integer (c.lead.getD l) (c.trail.getD t) (c.value.getD v)
  | .addOp l t => .addOp (c.lead.getD l) (c.trail.getD t)
  | .binop l t a op b =>
      .binop (c.lead.getD l) (c.trail.getD t) (c.left.getD a) (c.op.getD op) (c.right.getD b)
  | .annot l t m e =>
      .annot (c.lead.getD l) (c.trail.getD t) (c.marker.getD m) (c.expr.getD e)
  | .commaTok l t => .commaTok (c.lead.getD l) (c.trail.getD t)
  | .param l t nm an cm =>
      .param (c.lead.getD l) (c.trail.getD t) (c.nm.getD nm) (c.ann.getD an) (c.comma.getD cm)
  | .parameters l t items =>
      .parameters (c.lead.getD l) (c.trail.getD t) (c.items.getD items)
  | .returnStmt l t v => .returnStmt (c.lead.getD l) (c.trail.getD t) (c.retValue.getD v)
  | .ellipsisLit l t => .ellipsisLit (c.lead.getD l) (c.trail.getD t)
  | .block l t ss => .block (c.lead.getD l) (c.trail.getD t) (c.stmts.getD ss)
  | .functionDef l t nm ps r b =>
      .functionDef (c.lead.getD l) (c.trail.getD t) (c.nm.getD nm) (c.params.getD ps)
        (c.returns.getD r) (c.body.getD b)
  | .classDef l t nm b =>
      .classDef (c.lead.getD l) (c.trail.getD t) (c.nm.getD nm) (c.body.getD b)
  | .module l t ss => .module (c.lead.getD l) (c.trail.getD t) (c.stmts.getD ss)

/-! ## Object identity -/

/-- Modelled from the spec (§3): object identity is a separate, stricter
relation than deep equality, used only for sharing detection. A tree
instance is a tree value together with the allocation identity of the parse
that built it; independent parses allocate distinct identities. -/
structure Allocated where
  tree : Node
  instanceId : Nat
deriving DecidableEq, Repr

/-- Modelled from the spec: parsing a module as a fresh tree instance with
the allocation identity `allocId`. -/
def parseInstance (S : String) (allocId : Nat) : Option Allocated :=
  match parseModule S with
  | .none => .none
  | .some n => .some ⟨n, allocId⟩

/-- Modelled from the spec: the identity comparison of two tree instances
(the `is` relation): the same allocation, not a structural comparison. -/
def identical (a b : Allocated) : Bool := a.instanceId == b.instanceId

/-! ## The annotation-copying codemod

Modelled from the tutorial (`TypingCollector` / `TypingTransformer`): a
read-only visitor collects each function's parameter list and return
annotation keyed by its qualified name path (the stack of enclosing
class/function names), descending no further into function bodies; a
transformer then replaces, on leaving each function definition, its
parameters and return annotation with the collected ones. -/

/-- The value of a name node (empty for any other kind). -/
def nameValueOf : Node → String
  | .name _ _ v => v
  | _ => ""

/-- The caller-owned accumulator of the codemod: the stack of enclosing
class/function names and the collected (parameters, return annotation)
pairs keyed by qualified name path. -/
structure TState where
  stack : List String
  found : List (List String × (Node × ONode))
deriving Repr

/-- Association lookup by qualified name path. -/
def findAnn : List (List String × (Node × ONode)) → List String → Option (Node × ONode)
  | [], _ => .none
  | (k, v) :: rest, key => if k = key then .some v else findAnn rest key

/-- The collecting visitor: pushes class/function names on enter, records
(parameters, returns) under the qualified name path of each function
definition and does not descend into it, pops on leave, and never replaces
a node. -/
def typingCollector : Transformer TState where
  enter s n :=
    match n with
    | .classDef _ _ nm _ => ({ s with stack := s.stack ++ [nameValueOf nm] }, Option.none)
    | .functionDef _ _ nm ps r _ =>
        let st := s.stack ++ [nameValueOf nm]
        ({ stack := st, found := s.found ++ [(st, (ps, r))] }, Option.some false)
    | _ => (s, Option.none)
  leave s orig upd :=
    match orig with
    | .classDef .. => ({ s with stack := s.stack.dropLast }, upd)
    | .functionDef .. => ({ s with stack := s.stack.dropLast }, upd)
    | _ => (s, upd)

/-- The annotating transformer: pushes names on enter (not descending into
function bodies), and on leaving a function definition whose qualified name
path was collected, replaces its parameters and return annotation via
`with_changes`. -/
def typingTransformer : Transformer TState where
  enter s n :=
    match n with
    | .classDef _ _ nm _ => ({ s with stack := s.stack ++ [nameValueOf nm] }, Option.none)
    | .functionDef _ _ nm _ _ _ =>
        ({ s with stack := s.stack ++ [nameValueOf nm] }, Option.some false)
    | _ => (s, Option.none)
  leave s orig upd :=
    match orig with
    | .classDef .. => ({ s with stack := s.stack.dropLast }, upd)
    | .functionDef .. =>
        let s' : TState := { s with stack := s.stack.dropLast }
        match findAnn s.found s.stack with
        | .some (ps, r) =>
            (s', with_changes upd { params := Option.some ps, returns := Option.some r })
        | .none => (s', upd)
    | _ => (s, upd)

/-- The whole codemod: parse the stub and the source, collect annotations
from the stub, copy them into the source tree, and generate code from the
result. -/
def annotateTypes (stubS srcS : String) : Option String :=
  match parseModule stubS, parseModule srcS with
  | .some stub, .some src =>
      let collected := (visitNode typingCollector ⟨[], []⟩ stub).1
      .some (gen (visitNode typingTransformer ⟨[], collected.found⟩ src).2.1)
  | _, _ => .none

/-! ## Supporting lemmas: character classes and whitespace counting -/

theorem isWs_cases {c : Char} (h : isWs c = true) : c = ' ' ∨ c = '\n' := by
  simpa [isWs] using h

theorem identChar_not_ws {c : Char} (h : identChar c = true) : isWs c = false := by
  cases hw : isWs c with
  | false => rfl
  | true =>
    rcases isWs_cases hw with rfl | rfl <;> revert h <;> decide

theorem digit_not_ws {c : Char} (h : c.isDigit = true) : isWs c = false := by
  cases hw : isWs c with
  | false => rfl
  | true =>
    rcases isWs_cases hw with rfl | rfl <;> revert h <;> decide

theorem countWs_append (a b : List Char) : countWs (a ++ b) = countWs a + countWs b := by
  simp [countWs, List.filter_append]

theorem countWs_allWs (s : String) (h : allWs s = true) : countWs s.data = s.length := by
  show (s.data.filter isWs).length = s.data.length
  rw [List.filter_eq_self.2]
  intro a ha
  exact (List.all_eq_true.1 h) a ha

theorem countWs_wsFree (s : String) (h : wsFree s = true) : countWs s.data = 0 := by
  show (s.data.filter isWs).length = 0
  rw [List.filter_eq_nil_iff.2]
  · rfl
  · intro a ha
    simpa using (List.all_eq_true.1 h) a ha

theorem allWs_mk_takeWs (l : List Char) : allWs (String.mk (l.takeWhile isWs)) = true := by
  simp [allWs, List.all_eq_true]

theorem wsFree_mk_ident (l : List Char) :
    wsFree (String.mk (l.takeWhile identChar)) = true := by
  simp only [wsFree, List.all_eq_true]
  intro c hc
  simp [identChar_not_ws (List.mem_takeWhile_imp hc)]

theorem wsFree_mk_digits (l : List Char) :
    wsFree (String.mk (l.takeWhile Char.isDigit)) = true := by
  simp only [wsFree, List.all_eq_true]
  intro c hc
  simp [digit_not_ws (List.mem_takeWhile_imp hc)]

theorem countWs_nil : countWs ([] : List Char) = 0 := rfl

theorem countWs_plus : countWs ['+'] = 0 := rfl

theorem countWs_comma : countWs [','] = 0 := rfl

theorem countWs_return : countWs ['r', 'e', 't', 'u', 'r', 'n'] = 0 := rfl

theorem countWs_dots : countWs ['.', '.', '.'] = 0 := rfl

theorem countWs_def : countWs ['d', 'e', 'f'] = 0 := rfl

theorem countWs_class : countWs ['c', 'l', 'a', 's', 's'] = 0 := rfl

theorem countWs_lpar : countWs ['('] = 0 := rfl

theorem countWs_rpar : countWs [')'] = 0 := rfl

theorem countWs_colon : countWs [':'] = 0 := rfl

theorem countWs_arrow : countWs ['-', '>'] = 0 := rfl

mutual

/-- On a tree satisfying the parser's whitespace invariant, the whitespace
bytes of the generated text are counted exactly by the tree's attributed
leading/trailing whitespace slots. -/
theorem countWs_gen : ∀ n : Node, wsInv n = true → countWs (gen n).data = wsSum n
  | .name l t v, h => by
    simp only [wsInv, Bool.and_eq_true] at h
    obtain ⟨⟨hl, ht⟩, hv⟩ := h
    simp [gen, wsSum, String.data_append, countWs_append,
      countWs_allWs _ hl, countWs_allWs _ ht, countWs_wsFree _ hv]
  | .integer l t v, h => by
    simp only [wsInv, Bool.and_eq_true] at h
    obtain ⟨⟨hl, ht⟩, hv⟩ := h
    simp [gen, wsSum, String.data_append, countWs_append,
      countWs_allWs _ hl, countWs_allWs _ ht, countWs_wsFree _ hv]
  | .addOp l t, h => by
    simp only [wsInv, Bool.and_eq_true] at h
    obtain ⟨hl, ht⟩ := h
    simp only [gen, wsSum, String.data_append, countWs_append,
      countWs_allWs _ hl, countWs_allWs _ ht, countWs_plus]
    omega
  | .binop l t a op b, h => by
    simp only [wsInv, Bool.and_eq_true] at h
    obtain ⟨⟨⟨⟨hl, ht⟩, ha⟩, ho⟩, hb⟩ := h
    simp only [gen, wsSum, String.data_append, countWs_append,
      countWs_allWs _ hl, countWs_allWs _ ht,
      countWs_gen a ha, countWs_gen op ho, countWs_gen b hb]
    omega
  | .annot l t m e, h => by
    simp only [wsInv, Bool.and_eq_true] at h
    obtain ⟨⟨⟨hl, ht⟩, hm⟩, he⟩ := h
    simp only [gen, wsSum, String.data_append, countWs_append,
      countWs_allWs _ hl, countWs_allWs _ ht, countWs_wsFree _ hm,
      countWs_gen e he]
    omega
  | .commaTok l t, h => by
    simp only [wsInv, Bool.and_eq_true] at h
    obtain ⟨hl, ht⟩ := h
    simp only [gen, wsSum, String.data_append, countWs_append,
      countWs_allWs _ hl, countWs_allWs _ ht, countWs_comma]
    omega
  | .param l t nm an c, h => by
    simp only [wsInv, Bool.and_eq_true] at h
    obtain ⟨⟨⟨⟨hl, ht⟩, hn⟩, ha⟩, hc⟩ := h
    simp only [gen, wsSum, String.data_append, countWs_append,
      countWs_allWs _ hl, countWs_allWs _ ht,
      countWs_gen nm hn, countWs_genO an ha, countWs_genO c hc]
    omega
  | .parameters l t items, h => by
    simp only [wsInv, Bool.and_eq_true] at h
    obtain ⟨⟨hl, ht⟩, hi⟩ := h
    simp only [gen, wsSum, String.data_append, countWs_append,
      countWs_allWs _ hl, countWs_allWs _ ht, countWs_genL items hi]
    omega
  | .returnStmt l t v, h => by
    simp only [wsInv, Bool.and_eq_true] at h
    obtain ⟨⟨hl, ht⟩, hv⟩ := h
    simp only [gen, wsSum, String.data_append, countWs_append,
      countWs_allWs _ hl, countWs_allWs _ ht, countWs_genO v hv, countWs_return]
    omega
  | .ellipsisLit l t, h => by
    simp only [wsInv, Bool.and_eq_true] at h
    obtain ⟨hl, ht⟩ := h
    simp only [gen, wsSum, String.data_append, countWs_append,
      countWs_allWs _ hl, countWs_allWs _ ht, countWs_dots]
    omega
  | .block l t ss, h => by
    simp only [wsInv, Bool.and_eq_true] at h
    obtain ⟨⟨hl, ht⟩, hs⟩ := h
    simp only [gen, wsSum, String.data_append, countWs_append,
      countWs_allWs _ hl, countWs_allWs _ ht, countWs_genL ss hs]
    omega
  | .functionDef l t nm ps r b, h => by
    simp only [wsInv, Bool.and_eq_true] at h
    obtain ⟨⟨⟨⟨⟨hl, ht⟩, hn⟩, hp⟩, hr⟩, hb⟩ := h
    simp only [gen, wsSum, String.data_append, countWs_append,
      countWs_allWs _ hl, countWs_allWs _ ht, countWs_gen nm hn,
      countWs_gen ps hp, countWs_genO r hr, countWs_gen b hb,
      countWs_def, countWs_lpar, countWs_rpar, countWs_colon]
    omega
  | .classDef l t nm b, h => by
    simp only [wsInv, Bool.and_eq_true] at h
    obtain ⟨⟨⟨hl, ht⟩, hn⟩, hb⟩ := h
    simp only [gen, wsSum, String.data_append, countWs_append,
      countWs_allWs _ hl, countWs_allWs _ ht, countWs_gen nm hn,
      countWs_gen b hb, countWs_class, countWs_colon]
    omega
  | .module l t ss, h => by
    simp only [wsInv, Bool.and_eq_true] at h
    obtain ⟨⟨hl, ht⟩, hs⟩ := h
    simp only [gen, wsSum, String.data_append, countWs_append,
      countWs_allWs _ hl, countWs_allWs _ ht, countWs_genL ss hs]
    omega

/-- `countWs_gen` for an optional child. -/
theorem countWs_genO : ∀ o : ONode, wsInvO o = true → countWs (genO o).data = wsSumO o
  | .none, _ => rfl
  | .some n, h => by
    simpa [genO, wsSumO] using countWs_gen n (by simpa [wsInvO] using h)

/-- `countWs_gen` for a sequence of children. -/
theorem countWs_genL : ∀ ss : NodeList, wsInvL ss = true → countWs (genL ss).data = wsSumL ss
  | .nil, _ => rfl
  | .cons n rest, h => by
    simp only [wsInvL, Bool.and_eq_true] at h
    obtain ⟨hn, hr⟩ := h
    simp only [genL, wsSumL, String.data_append, countWs_append,
      countWs_gen n hn, countWs_genL rest hr]

end

/-! ## Supporting lemmas: the parser reproduces its input -/

theorem tw_dw (p : Char → Bool) (l : List Char) :
    l.takeWhile p ++ l.dropWhile p = l := List.takeWhile_append_dropWhile p l

theorem allWs_empty : allWs "" = true := rfl

theorem wsFree_empty : wsFree "" = true := rfl

theorem parseAtom_sound {cs rest : List Char} {n : Node}
    (h : parseAtom cs = .some (n, rest)) :
    (gen n).data ++ rest = cs ∧ wsInv n = true ∧ trailOf n = "" := by
  cases hd : cs.dropWhile isWs with
  | nil => simp [parseAtom, hd] at h
  | cons c r' =>
    simp only [parseAtom, hd] at h
    split at h
    · simp only [Option.some.injEq, Prod.mk.injEq] at h
      obtain ⟨hn, hrest⟩ := h
      subst hn hrest
      refine ⟨?_, ?_, rfl⟩
      · simp only [gen, String.data_append]
        simp only [List.append_assoc, List.append_nil]
        rw [tw_dw Char.isDigit (c :: r'), ← hd, tw_dw isWs cs]
      · simp [wsInv, allWs_mk_takeWs, wsFree_mk_digits, allWs_empty]
    · split at h
      · simp only [Option.some.injEq, Prod.mk.injEq] at h
        obtain ⟨hn, hrest⟩ := h
        subst hn hrest
        refine ⟨?_, ?_, rfl⟩
        · simp only [gen, String.data_append]
          simp only [List.append_assoc, List.append_nil]
          rw [tw_dw identChar (c :: r'), ← hd, tw_dw isWs cs]
        · simp [wsInv, allWs_mk_takeWs, wsFree_mk_ident, allWs_empty]
      · exact absurd h (by simp)

theorem gen_setTrail (n : Node) (t : String) (h : trailOf n = "") :
    gen (setTrail n t) = gen n ++ t := by
  cases n <;> simp_all [gen, setTrail, trailOf, String.append_assoc]

theorem wsInv_setTrail {n : Node} {t : String} (hn : wsInv n = true)
    (ht : allWs t = true) : wsInv (setTrail n t) = true := by
  cases n <;> simp_all [wsInv, setTrail]

theorem wsSum_setTrail (n : Node) (t : String) (h : trailOf n = "") :
    wsSum (setTrail n t) = wsSum n + t.length := by
  cases n <;> (simp_all [wsSum, setTrail, trailOf]; try omega)

theorem data_mk (l : List Char) : (String.mk l).data = l := rfl

theorem wsFree_colon : wsFree ":" = true := by decide

theorem wsFree_arrow : wsFree "->" = true := by decide

/-- Soundness of `parseOps`: the generated text of the parse result,
followed by the unconsumed input, reproduces the already-parsed left
operand's text followed by the input; the whitespace invariant and an empty
trailing slot are preserved. -/
def OpsSound (fuel : Nat) : Prop :=
  ∀ left cs n rest, parseOps fuel left cs = .some (n, rest) →
    (gen n).data ++ rest = (gen left).data ++ cs
    ∧ (wsInv left = true → wsInv n = true)
    ∧ (trailOf left = "" → trailOf n = "")

/-- Soundness of `parseExprF`: the parse result's text followed by the
unconsumed input reproduces the input. -/
def ExprSound (fuel : Nat) : Prop :=
  ∀ cs n rest, parseExprF fuel cs = .some (n, rest) →
    (gen n).data ++ rest = cs ∧ wsInv n = true ∧ trailOf n = ""

/-- Soundness of `parseParamItems`: items, the parameter list's trailing
whitespace and the consumed `)` reproduce the input. -/
def ParamItemsSound (fuel : Nat) : Prop :=
  ∀ cs items ptrail rest, parseParamItems fuel cs = .some (items, ptrail, rest) →
    (genL items).data ++ (ptrail.data ++ ')' :: rest) = cs
    ∧ wsInvL items = true ∧ allWs ptrail = true

/-- Soundness of `parseParamEnd`: as `ParamItemsSound`, prefixed by the
already-parsed name and annotation of the first parameter. -/
def ParamEndSound (fuel : Nat) : Prop :=
  ∀ nm an cs items ptrail rest, parseParamEnd fuel nm an cs = .some (items, ptrail, rest) →
    (genL items).data ++ (ptrail.data ++ ')' :: rest) = (gen nm).data ++ ((genO an).data ++ cs)
    ∧ (wsInv nm = true → wsInvO an = true → wsInvL items = true)
    ∧ allWs ptrail = true

/-- Soundness of `parseSimpleStmt`: the statement's text followed by the
unconsumed input reproduces the leading whitespace followed by the input. -/
def SimpleStmtSound (fuel : Nat) : Prop :=
  ∀ lead cs st rest, parseSimpleStmt fuel lead cs = .some (st, rest) →
    (gen st).data ++ rest = lead.data ++ cs
    ∧ (allWs lead = true → wsInv st = true)

/-- Soundness of `parseFnBody`: the assembled function definition's text
followed by the unconsumed input reproduces the already-consumed header
followed by the input. -/
def FnBodySound (fuel : Nat) : Prop :=
  ∀ lead nm ps rets cs st rest, parseFnBody fuel lead nm ps rets cs = .some (st, rest) →
    (gen st).data ++ rest =
      lead.data ++ ('d' :: 'e' :: 'f' ::
        ((gen nm).data ++ '(' :: ((gen ps).data ++ ')' :: ((genO rets).data ++ ':' :: cs))))
    ∧ (allWs lead = true → wsInv nm = true → wsInv ps = true → wsInvO rets = true →
        wsInv st = true)

/-- Soundness of `parseFuncdef`: the function definition's text followed by
the unconsumed input reproduces the leading whitespace, the consumed `def`
keyword and the input. -/
def FuncdefSound (fuel : Nat) : Prop :=
  ∀ lead cs st rest, parseFuncdef fuel lead cs = .some (st, rest) →
    (gen st).data ++ rest = lead.data ++ ('d' :: 'e' :: 'f' :: cs)
    ∧ (allWs lead = true → wsInv st = true)

/-- Soundness of `parseStmt`. -/
def StmtSound (fuel : Nat) : Prop :=
  ∀ lead cs st rest, parseStmt fuel lead cs = .some (st, rest) →
    (gen st).data ++ rest = lead.data ++ cs
    ∧ (allWs lead = true → wsInv st = true)

/-- Soundness of `parseStmts`: the statements' text followed by the
end-of-input whitespace reproduces the input exactly. -/
def StmtsSound (fuel : Nat) : Prop :=
  ∀ cs ss trail, parseStmts fuel cs = .some (ss, trail) →
    (genL ss).data ++ trail.data = cs
    ∧ wsInvL ss = true ∧ allWs trail = true

/-- Every parsing function reproduces its consumed input and establishes
the whitespace invariant, at every fuel. -/
theorem parse_sound : ∀ fuel : Nat,
    OpsSound fuel ∧ ExprSound fuel ∧ ParamItemsSound fuel ∧ ParamEndSound fuel
    ∧ SimpleStmtSound fuel ∧ FnBodySound fuel ∧ FuncdefSound fuel ∧ StmtSound fuel
    ∧ StmtsSound fuel := by
  intro fuel
  induction fuel with
  | zero =>
    refine ⟨?_, ?_, ?_, ?_, ?_, ?_, ?_, ?_, ?_⟩
    · intro left cs n rest h
      exact absurd h (by simp [parseOps])
    · intro cs n rest h
      exact absurd h (by simp [parseExprF])
    · intro cs items ptrail rest h
      exact absurd h (by simp [parseParamItems])
    · intro nm an cs items ptrail rest h
      exact absurd h (by simp [parseParamEnd])
    · intro lead cs st rest h
      exact absurd h (by simp [parseSimpleStmt])
    · intro lead nm ps rets cs st rest h
      exact absurd h (by simp [parseFnBody])
    · intro lead cs st rest h
      exact absurd h (by simp [parseFuncdef])
    · intro lead cs st rest h
      exact absurd h (by simp [parseStmt])
    · intro cs ss trail h
      exact absurd h (by simp [parseStmts])
  | succ fuel ih =>
    obtain ⟨ihOps, ihExpr, ihPI, ihPEnd, ihSS, ihFB, ihFD, ihST, ihSTS⟩ := ih
    have hOps : OpsSound (fuel + 1) := by
      intro left cs n rest h
      simp only [parseOps] at h
      split at h
      · rename_i r' heq
        split at h
        · exact absurd h (by simp)
        · rename_i a r'' heq2
          obtain ⟨e1, w1, t1⟩ := ihOps _ _ _ _ h
          obtain ⟨ea, wa, _⟩ := parseAtom_sound heq2
          refine ⟨?_, ?_, ?_⟩
          · rw [e1]
            simp only [gen, String.data_append, data_mk, List.append_assoc,
              List.nil_append, List.append_nil, List.cons_append]
            rw [ea, ← heq, tw_dw]
          · intro hL
            apply w1
            simp [wsInv, allWs_empty, hL, wa, allWs_mk_takeWs]
          · intro _
            exact t1 rfl
      · simp only [Option.some.injEq, Prod.mk.injEq] at h
        obtain ⟨hn, hr⟩ := h
        subst hn; subst hr
        exact ⟨rfl, fun x => x, fun x => x⟩
    have hExpr : ExprSound (fuel + 1) := by
      intro cs n rest h
      simp only [parseExprF] at h
      split at h
      · exact absurd h (by simp)
      · rename_i a r heq
        obtain ⟨e1, w1, t1⟩ := ihOps _ _ _ _ h
        obtain ⟨ea, wa, ta⟩ := parseAtom_sound heq
        exact ⟨by rw [e1, ea], w1 wa, t1 ta⟩
    have hPI : ParamItemsSound (fuel + 1) := by
      intro cs items ptrail rest h
      simp only [parseParamItems] at h
      split at h
      · rename_i r' heq
        simp only [Option.some.injEq, Prod.mk.injEq] at h
        obtain ⟨h1, h2, h3⟩ := h
        subst h1; subst h2; subst h3
        refine ⟨?_, rfl, allWs_mk_takeWs _⟩
        simp only [genL, data_mk, List.nil_append]
        rw [← heq, tw_dw]
      · rename_i c cs1 heq
        split at h
        · rename_i hid
          split at h
          · rename_i r3 heq2
            split at h
            · exact absurd h (by simp)
            · rename_i e r4 heq3
              obtain ⟨e1, w1, t1⟩ := ihPEnd _ _ _ _ _ _ h
              obtain ⟨ee, we, te⟩ := ihExpr _ _ _ heq3
              refine ⟨?_, ?_, t1⟩
              · rw [e1]
                simp only [gen, genO, String.data_append, data_mk, List.append_assoc,
                  List.nil_append, List.append_nil, List.cons_append]
                rw [ee, ← heq2, tw_dw, tw_dw, tw_dw]
              · apply w1
                · simp [wsInv, allWs_mk_takeWs, wsFree_mk_ident, allWs_empty]
                · simp [wsInvO, wsInv, allWs_mk_takeWs, allWs_empty, wsFree_colon, we]
          · obtain ⟨e1, w1, t1⟩ := ihPEnd _ _ _ _ _ _ h
            refine ⟨?_, ?_, t1⟩
            · rw [e1]
              simp only [gen, genO, String.data_append, data_mk, List.append_assoc,
                List.nil_append, List.append_nil, List.cons_append]
              rw [tw_dw, tw_dw]
            · apply w1
              · simp [wsInv, allWs_mk_takeWs, wsFree_mk_ident, allWs_empty]
              · rfl
        · exact absurd h (by simp)
      · exact absurd h (by simp)
    have hPEnd2 : ParamEndSound (fuel + 1) := by
      intro nm an cs items ptrail rest h
      simp only [parseParamEnd] at h
      split at h
      · rename_i r' heq
        split at h
        · exact absurd h (by simp)
        · rename_i items' ptrail' rest' heq2
          simp only [Option.some.injEq, Prod.mk.injEq] at h
          obtain ⟨h1, h2, h3⟩ := h
          subst h1; subst h2; subst h3
          obtain ⟨e1, w1, t1⟩ := ihPI _ _ _ _ heq2
          refine ⟨?_, ?_, t1⟩
          · simp only [genL, gen, genO, String.data_append, data_mk, List.append_assoc,
              List.nil_append, List.append_nil, List.cons_append]
            rw [e1, ← heq, tw_dw]
          · intro h1 h2
            simp [wsInvL, wsInv, wsInvO, allWs_empty, allWs_mk_takeWs, h1, h2, w1]
      · rename_i r' heq
        simp only [Option.some.injEq, Prod.mk.injEq] at h
        obtain ⟨h1, h2, h3⟩ := h
        subst h1; subst h2; subst h3
        refine ⟨?_, ?_, allWs_mk_takeWs _⟩
        · simp only [genL, gen, genO, String.data_append, data_mk, List.append_assoc,
            List.nil_append, List.append_nil, List.cons_append]
          rw [← heq, tw_dw]
        · intro h1 h2
          simp [wsInvL, wsInv, wsInvO, allWs_empty, h1, h2]
      · exact absurd h (by simp)
    have hSS : SimpleStmtSound (fuel + 1) := by
      intro lead cs st rest h
      simp only [parseSimpleStmt] at h
      split at h
      · rename_i r
        simp only [Option.some.injEq, Prod.mk.injEq] at h
        obtain ⟨h1, h2⟩ := h
        subst h1; subst h2
        refine ⟨?_, ?_⟩
        · simp [gen, String.data_append, data_mk]
        · intro hL
          simp [wsInv, hL, allWs_empty]
      · rename_i c cs1 hnc
        split at h
        · rename_i hid
          split at h
          · exact absurd h (by simp)
          · rename_i hdef
            split at h
            · rename_i hret
              have hcs : ('r' :: 'e' :: 't' :: 'u' :: 'r' :: 'n' ::
                  ((c :: cs1).dropWhile identChar)) = c :: cs1 := by
                conv_rhs => rw [← tw_dw identChar (c :: cs1)]
                rw [hret]
                rfl
              split at h
              · rename_i c2 cs2 heq2
                split at h
                · rename_i hcond
                  split at h
                  · exact absurd h (by simp)
                  · rename_i e r3 heq3
                    simp only [Option.some.injEq, Prod.mk.injEq] at h
                    obtain ⟨h1, h2⟩ := h
                    subst h1; subst h2
                    obtain ⟨ee, we, te⟩ := ihExpr _ _ _ heq3
                    refine ⟨?_, ?_⟩
                    · simp only [gen, genO, String.data_append, data_mk,
                        List.append_assoc, List.nil_append, List.append_nil,
                        List.cons_append]
                      rw [ee, hcs]
                    · intro hL
                      simp [wsInv, wsInvO, hL, allWs_empty, we]
                · simp only [Option.some.injEq, Prod.mk.injEq] at h
                  obtain ⟨h1, h2⟩ := h
                  subst h1; subst h2
                  refine ⟨?_, ?_⟩
                  · simp only [gen, genO, String.data_append, data_mk,
                      List.append_assoc, List.nil_append, List.append_nil,
                      List.cons_append]
                    rw [hcs]
                  · intro hL
                    simp [wsInv, wsInvO, hL, allWs_empty]
              · simp only [Option.some.injEq, Prod.mk.injEq] at h
                obtain ⟨h1, h2⟩ := h
                subst h1; subst h2
                refine ⟨?_, ?_⟩
                · simp only [gen, genO, String.data_append, data_mk,
                    List.append_assoc, List.nil_append, List.append_nil,
                    List.cons_append]
                  rw [hcs]
                · intro hL
                  simp [wsInv, wsInvO, hL, allWs_empty]
            · rename_i hret
              obtain ⟨e1, w1, t1⟩ := ihOps _ _ _ _ h
              refine ⟨?_, ?_⟩
              · rw [e1]
                simp only [gen, data_mk, String.data_append, List.append_assoc,
                  List.append_nil, List.nil_append]
                rw [tw_dw]
              · intro hL
                apply w1
                simp [wsInv, hL, allWs_empty, wsFree_mk_ident]
        · rename_i hid
          split at h
          · rename_i hdig
            obtain ⟨e1, w1, t1⟩ := ihOps _ _ _ _ h
            refine ⟨?_, ?_⟩
            · rw [e1]
              simp only [gen, data_mk, String.data_append, List.append_assoc,
                List.append_nil, List.nil_append]
              rw [tw_dw]
            · intro hL
              apply w1
              simp [wsInv, hL, allWs_empty, wsFree_mk_digits]
          · exact absurd h (by simp)
      · exact absurd h (by simp)
    have hFB : FnBodySound (fuel + 1) := by
      intro lead nm ps rets cs st rest h
      simp only [parseFnBody] at h
      split at h
      · exact absurd h (by simp)
      · rename_i st' rest' heq
        simp only [Option.some.injEq, Prod.mk.injEq] at h
        obtain ⟨h1, h2⟩ := h
        subst h1; subst h2
        obtain ⟨e1, w1⟩ := ihSS _ _ _ _ heq
        refine ⟨?_, ?_⟩
        · simp only [gen, genL, String.data_append, data_mk, List.append_assoc,
            List.nil_append, List.append_nil, List.cons_append]
          rw [e1, data_mk, tw_dw]
        · intro hL h1 h2 h3
          simp [wsInv, wsInvL, hL, h1, h2, h3, allWs_empty, w1 (allWs_mk_takeWs _)]
    have hFD : FuncdefSound (fuel + 1) := by
      intro lead cs st rest h
      simp only [parseFuncdef] at h
      split at h
      · rename_i c cs1 heq
        split at h
        · rename_i hid
          split at h
          · rename_i r3 heq2
            split at h
            · exact absurd h (by simp)
            · rename_i items ptrail r4 heq3
              obtain ⟨e3, w3, t3⟩ := ihPI _ _ _ _ heq3
              split at h
              · rename_i r6 heq4
                split at h
                · exact absurd h (by simp)
                · rename_i e r7 heq5
                  split at h
                  · rename_i r8
                    obtain ⟨e1, w1⟩ := ihFB _ _ _ _ _ _ _ h
                    obtain ⟨ee, we, te⟩ := ihExpr _ _ _ heq5
                    refine ⟨?_, ?_⟩
                    · rw [e1]
                      simp only [gen, genO, String.data_append, data_mk,
                        List.append_assoc, List.nil_append, List.append_nil,
                        List.cons_append]
                      rw [ee, ← heq4, tw_dw, e3, ← heq2, tw_dw, tw_dw]
                    · intro hL
                      apply w1 hL
                      · simp [wsInv, allWs_mk_takeWs, wsFree_mk_ident, allWs_empty]
                      · simp [wsInv, allWs_empty, w3, t3]
                      · simp [wsInvO, wsInv, allWs_mk_takeWs, allWs_empty,
                          wsFree_arrow, we]
                  · exact absurd h (by simp)
              · rename_i r6 heq4
                split at h
                · rename_i hws5
                  obtain ⟨e1, w1⟩ := ihFB _ _ _ _ _ _ _ h
                  refine ⟨?_, ?_⟩
                  · rw [e1]
                    simp only [gen, genO, String.data_append, data_mk,
                      List.append_assoc, List.nil_append, List.append_nil,
                      List.cons_append]
                    have hr4 : (':' :: r6 : List Char) = r4 := by
                      conv_rhs => rw [← tw_dw isWs r4]
                      rw [hws5, heq4]
                      rfl
                    rw [hr4, e3, ← heq2, tw_dw, tw_dw]
                  · intro hL
                    apply w1 hL
                    · simp [wsInv, allWs_mk_takeWs, wsFree_mk_ident, allWs_empty]
                    · simp [wsInv, allWs_empty, w3, t3]
                    · rfl
                · exact absurd h (by simp)
              · exact absurd h (by simp)
          · exact absurd h (by simp)
        · exact absurd h (by simp)
      · exact absurd h (by simp)
    have hST : StmtSound (fuel + 1) := by
      intro lead cs st rest h
      simp only [parseStmt] at h
      split at h
      · rename_i hdef
        obtain ⟨e1, w1⟩ := ihFD _ _ _ _ h
        refine ⟨?_, w1⟩
        rw [e1]
        have hdc : ('d' :: 'e' :: 'f' :: (cs.dropWhile identChar)) = cs := by
          conv_rhs => rw [← tw_dw identChar cs]
          rw [hdef]
          rfl
        rw [hdc]
      · exact ihSS _ _ _ _ h
    have hSTS : StmtsSound (fuel + 1) := by
      intro cs ss trail h
      simp only [parseStmts] at h
      split at h
      · rename_i heq
        simp only [Option.some.injEq, Prod.mk.injEq] at h
        obtain ⟨h1, h2⟩ := h
        subst h1; subst h2
        refine ⟨?_, rfl, allWs_mk_takeWs _⟩
        simp only [genL, data_mk]
        conv_rhs => rw [← tw_dw isWs cs]
        rw [heq]
        simp
      · rename_i heq
        split at h
        · exact absurd h (by simp)
        · rename_i st r' heq2
          split at h
          · exact absurd h (by simp)
          · rename_i ss' trail' heq3
            simp only [Option.some.injEq, Prod.mk.injEq] at h
            obtain ⟨h1, h2⟩ := h
            subst h1; subst h2
            obtain ⟨e1, w1⟩ := ihST _ _ _ _ heq2
            obtain ⟨e2, w2, a2⟩ := ihSTS _ _ _ heq3
            refine ⟨?_, ?_, a2⟩
            · simp only [genL, String.data_append, List.append_assoc]
              rw [e2, e1, data_mk, tw_dw]
            · simp [wsInvL, w1 (allWs_mk_takeWs _), w2]
    exact ⟨hOps, hExpr, hPI, hPEnd2, hSS, hFB, hFD, hST, hSTS⟩

theorem string_ext {a b : String} (h : a.data = b.data) : a = b := by
  cases a; cases b; exact congrArg String.mk h

/-- Round trip through the module entry point: generated text reproduces
the parsed source exactly. -/
theorem roundtrip_module {S : String} {T : Node} (h : parseModule S = .some T) :
    gen T = S := by
  unfold parseModule at h
  split at h
  · exact absurd h (by simp)
  · rename_i ss trail heq
    simp only [Option.some.injEq] at h
    subst h
    obtain ⟨e, w, a⟩ := (parse_sound _).2.2.2.2.2.2.2.2 _ _ _ heq
    apply string_ext
    simpa [gen, String.data_append] using e

/-- The module parser's output satisfies the whitespace invariant. -/
theorem wsInv_module {S : String} {T : Node} (h : parseModule S = .some T) :
    wsInv T = true := by
  unfold parseModule at h
  split at h
  · exact absurd h (by simp)
  · rename_i ss trail heq
    simp only [Option.some.injEq] at h
    subst h
    obtain ⟨e, w, a⟩ := (parse_sound _).2.2.2.2.2.2.2.2 _ _ _ heq
    simp [wsInv, allWs_empty, w, a]

/-- Round trip through the expression entry point. -/
theorem roundtrip_expression {S : String} {T : Node} (h : parseExpression S = .some T) :
    gen T = S := by
  unfold parseExpression at h
  split at h
  · exact absurd h (by simp)
  · rename_i e rest heq
    split at h
    · rename_i hdw
      simp only [Option.some.injEq] at h
      subst h
      obtain ⟨ee, we, te⟩ := (parse_sound _).2.1 _ _ _ heq
      apply string_ext
      rw [gen_setTrail _ _ te]
      have hrest : rest.takeWhile isWs = rest := by
        conv_rhs => rw [← tw_dw isWs rest]
        rw [hdw]
        simp
      simp only [String.data_append, data_mk, hrest]
      exact ee
    · exact absurd h (by simp)

/-- The expression parser's output satisfies the whitespace invariant. -/
theorem wsInv_expression {S : String} {T : Node} (h : parseExpression S = .some T) :
    wsInv T = true := by
  unfold parseExpression at h
  split at h
  · exact absurd h (by simp)
  · rename_i e rest heq
    split at h
    · rename_i hdw
      simp only [Option.some.injEq] at h
      subst h
      obtain ⟨ee, we, te⟩ := (parse_sound _).2.1 _ _ _ heq
      exact wsInv_setTrail we (allWs_mk_takeWs _)
    · exact absurd h (by simp)

/-- Every whitespace byte of the source is attributed to exactly one node's
leading or trailing slot: the sum of attributed whitespace equals the
source's whitespace byte count (module entry point). -/
theorem whitespace_exact_module {S : String} {T : Node} (h : parseModule S = .some T) :
    wsSum T = countWs S.data := by
  rw [← countWs_gen T (wsInv_module h), roundtrip_module h]

/-- As `whitespace_exact_module`, for the expression entry point. -/
theorem whitespace_exact_expression {S : String} {T : Node}
    (h : parseExpression S = .some T) : wsSum T = countWs S.data := by
  rw [← countWs_gen T (wsInv_expression h), roundtrip_expression h]

/-! ## Supporting lemmas: the traversal engine -/

/-- Every node's traversal is one `step` of the hook protocol around its
children's traversal. -/
theorem visitNode_eq_step {σ : Type} (t : Transformer σ) (s : σ) (n : Node) :
    ∃ k, visitNode t s n = step t s n k := by
  cases n <;> exact ⟨_, rfl⟩

/-- When the enter hook signals "do not descend", the step skips the
children entirely: the leave hook still fires, on the node with children
unchanged, and the trace holds exactly the node's own enter and exit. -/
theorem step_stop {σ : Type} {t : Transformer σ} {s s₁ : σ} {n : Node}
    (h : t.enter s n = (s₁, Option.some false)) (k : σ → σ × Node × List Event) :
    step t s n k =
      ((t.leave s₁ n n).1, (t.leave s₁ n n).2, [Event.enter n, Event.exit n]) := by
  simp [step, h]

/-- When the enter hook returns no signal, the step descends: the trace is
the node's enter, the children's trace, and the node's exit. -/
theorem step_descend {σ : Type} {t : Transformer σ} {s s₁ : σ} {n : Node}
    (h : t.enter s n = (s₁, Option.none)) (k : σ → σ × Node × List Event) :
    step t s n k =
      ((t.leave (k s₁).1 n (k s₁).2.1).1, (t.leave (k s₁).1 n (k s₁).2.1).2,
        Event.enter n :: ((k s₁).2.2 ++ [Event.exit n])) := by
  simp [step, h]

mutual

/-- A transformer whose leave hook never replaces a node returns every node
unchanged. -/
theorem noopN {σ : Type} (t : Transformer σ)
    (hlv : ∀ s o u, (t.leave s o u).2 = u) :
    ∀ (s : σ) (n : Node), (visitNode t s n).2.1 = n
  | s, .name l tr v => by
    simp only [visitNode, step]
    split <;> simp [hlv]
  | s, .integer l tr v => by
    simp only [visitNode, step]
    split <;> simp [hlv]
  | s, .addOp l tr => by
    simp only [visitNode, step]
    split <;> simp [hlv]
  | s, .commaTok l tr => by
    simp only [visitNode, step]
    split <;> simp [hlv]
  | s, .ellipsisLit l tr => by
    simp only [visitNode, step]
    split <;> simp [hlv]
  | s, .binop l tr a op b => by
    have ha : ∀ s', (visitNode t s' a).2.1 = a := fun s' => noopN t hlv s' a
    have ho : ∀ s', (visitNode t s' op).2.1 = op := fun s' => noopN t hlv s' op
    have hb : ∀ s', (visitNode t s' b).2.1 = b := fun s' => noopN t hlv s' b
    simp only [visitNode, step]
    split <;> simp [hlv, ha, ho, hb]
  | s, .annot l tr m e => by
    have he : ∀ s', (visitNode t s' e).2.1 = e := fun s' => noopN t hlv s' e
    simp only [visitNode, step]
    split <;> simp [hlv, he]
  | s, .param l tr nm an c => by
    have hn : ∀ s', (visitNode t s' nm).2.1 = nm := fun s' => noopN t hlv s' nm
    have ha : ∀ s', (visitOpt t s' an).2.1 = an := fun s' => noopO t hlv s' an
    have hc : ∀ s', (visitOpt t s' c).2.1 = c := fun s' => noopO t hlv s' c
    simp only [visitNode, step]
    split <;> simp [hlv, hn, ha, hc]
  | s, .parameters l tr items => by
    have hi : ∀ s', (visitList t s' items).2.1 = items := fun s' => noopL t hlv s' items
    simp only [visitNode, step]
    split <;> simp [hlv, hi]
  | s, .returnStmt l tr v => by
    have hv : ∀ s', (visitOpt t s' v).2.1 = v := fun s' => noopO t hlv s' v
    simp only [visitNode, step]
    split <;> simp [hlv, hv]
  | s, .block l tr ss => by
    have hs : ∀ s', (visitList t s' ss).2.1 = ss := fun s' => noopL t hlv s' ss
    simp only [visitNode, step]
    split <;> simp [hlv, hs]
  | s, .functionDef l tr nm ps r b => by
    have hn : ∀ s', (visitNode t s' nm).2.1 = nm := fun s' => noopN t hlv s' nm
    have hp : ∀ s', (visitNode t s' ps).2.1 = ps := fun s' => noopN t hlv s' ps
    have hr : ∀ s', (visitOpt t s' r).2.1 = r := fun s' => noopO t hlv s' r
    have hb : ∀ s', (visitNode t s' b).2.1 = b := fun s' => noopN t hlv s' b
    simp only [visitNode, step]
    split <;> simp [hlv, hn, hp, hr, hb]
  | s, .classDef l tr nm b => by
    have hn : ∀ s', (visitNode t s' nm).2.1 = nm := fun s' => noopN t hlv s' nm
    have hb : ∀ s', (visitNode t s' b).2.1 = b := fun s' => noopN t hlv s' b
    simp only [visitNode, step]
    split <;> simp [hlv, hn, hb]
  | s, .module l tr ss => by
    have hs : ∀ s', (visitList t s' ss).2.1 = ss := fun s' => noopL t hlv s' ss
    simp only [visitNode, step]
    split <;> simp [hlv, hs]

/-- `noopN` for an optional child. -/
theorem noopO {σ : Type} (t : Transformer σ)
    (hlv : ∀ s o u, (t.leave s o u).2 = u) :
    ∀ (s : σ) (o : ONode), (visitOpt t s o).2.1 = o
  | _, .none => rfl
  | s, .some n => by
    have hn : ∀ s', (visitNode t s' n).2.1 = n := fun s' => noopN t hlv s' n
    simp [visitOpt, hn]

/-- `noopN` for a sequence of children. -/
theorem noopL {σ : Type} (t : Transformer σ)
    (hlv : ∀ s o u, (t.leave s o u).2 = u) :
    ∀ (s : σ) (ss : NodeList), (visitList t s ss).2.1 = ss
  | _, .nil => rfl
  | s, .cons n rest => by
    have hn : ∀ s', (visitNode t s' n).2.1 = n := fun s' => noopN t hlv s' n
    have hr : ∀ s', (visitList t s' rest).2.1 = rest := fun s' => noopL t hlv s' rest
    simp [visitList, hn, hr]

end

/-- As `visitNode_eq_step`, for the engine with failing hooks. -/
theorem visitNodeE_eq_stepE {σ ε : Type} (t : TransformerE σ ε) (s : σ) (n : Node) :
    ∃ k, visitNodeE t s n = stepE t s n k := by
  cases n <;> exact ⟨_, rfl⟩

/-! ## Concrete instances used by the claims -/

/-- The tree the expression entry point builds for `"1 + 2"`. -/
def exprOnePlusTwo : Node :=
  .binop "" "" (.integer "" "" "1") (.addOp " " "") (.integer " " "" "2")

/-- The tree the module entry point builds for `"1 + 2"`. -/
def moduleOnePlusTwo : Node := .module "" "" (.cons exprOnePlusTwo .nil)

/-- The tree the module entry point builds for
`"def f(x):\n    return x"`. -/
def srcModuleTree : Node :=
  .module "" ""
    (.cons
      (.functionDef "" "" (.name " " "" "f")
        (.parameters "" "" (.cons (.param "" "" (.name "" "" "x") .none .none) .nil))
        .none
        (.block "" "" (.cons (.returnStmt "\n    " "" (.some (.name " " "" "x"))) .nil)))
      .nil)

/-- An ellipsis statement nested inside `probeFn`'s body. -/
def probeRet : Node := .ellipsisLit " " ""

/-- A function definition nested inside `probeClass`. -/
def probeFn : Node :=
  .functionDef "\n    " "" (.name " " "" "g") (.parameters "" "" .nil) .none
    (.block "" "" (.cons probeRet .nil))

/-- A class definition containing one nested function definition. -/
def probeClass : Node :=
  .classDef "" "" (.name " " "" "C") (.block "" "" (.cons probeFn .nil))

/-- A visitor whose class-definition enter hook returns no value (permitting
descent) and whose function-definition enter hook returns `false` (the "do
not descend" signal); its leave hook never replaces a node. -/
def probeVisitor : Transformer Unit where
  enter _ n := ((), match n with | .functionDef .. => Option.some false | _ => Option.none)
  leave s _ u := (s, u)

/-- A visitor that always signals "do not descend" and never replaces. -/
def stopAll : Transformer Unit where
  enter _ _ := ((), Option.some false)
  leave s _ u := (s, u)

/-- A transformer whose hooks never intervene at all. -/
def identityTransformer : Transformer Unit where
  enter _ _ := ((), Option.none)
  leave s _ u := (s, u)

/-- A transformer whose enter hook always fails. -/
def failingHooks : TransformerE Unit Nat where
  enter _ _ := .error 7
  leave s _ u := .ok (s, u)

/-- The overrides the typing codemod applies to `def f`: the stub's
parameter list `(x: int)` and return annotation `-> str`. -/
def stubOverrides : Changes :=
  { params := Option.some (.parameters "" ""
      (.cons (.param "" "" (.name "" "" "x")
        (.some (.annot "" "" ":" (.name " " "" "int"))) .none) .nil)),
    returns := Option.some (.some (.annot " " "" "->" (.name " " "" "str"))) }

/-! ## The claims -/

/-- C1: for every syntactically valid source text `S` (module or expression
entry point), generating code from the unmodified tree returned by parsing
`S` reproduces `S` exactly: `generate(parse(S)) = S`. -/
theorem round_trip_exact :
    (∀ (S : String) (T : Node), parseModule S = .some T → gen T = S)
    ∧ (∀ (S : String) (T : Node), parseExpression S = .some T → gen T = S) :=
  ⟨fun _ _ h => roundtrip_module h, fun _ _ h => roundtrip_expression h⟩

theorem round_trip_exact_witness :
    (parseModule "def f(x):\n    return x" = .some srcModuleTree
      ∧ gen srcModuleTree = "def f(x):\n    return x")
    ∧ (parseExpression "1 + 2" = .some exprOnePlusTwo ∧ gen exprOnePlusTwo = "1 + 2") :=
  ⟨⟨rfl, round_trip_exact.1 _ _ rfl⟩, ⟨rfl, round_trip_exact.2 _ _ rfl⟩⟩

/-- C2: for every valid source text `S`, the sum over all nodes of the
parser-produced tree of the lengths of their attributed leading and
trailing whitespace equals exactly the whitespace byte count of `S` — every
whitespace byte between two tokens is owned by exactly one neighboring
node, never duplicated and never dropped. -/
theorem whitespace_exactly_once :
    (∀ (S : String) (T : Node), parseModule S = .some T → wsSum T = countWs S.data)
    ∧ (∀ (S : String) (T : Node), parseExpression S = .some T → wsSum T = countWs S.data) :=
  ⟨fun _ _ h => whitespace_exact_module h, fun _ _ h => whitespace_exact_expression h⟩

theorem whitespace_exactly_once_witness :
    parseModule "def f(x):\n    return x" = .some srcModuleTree
    ∧ wsSum srcModuleTree = countWs "def f(x):\n    return x".data :=
  ⟨rfl, whitespace_exactly_once.1 _ _ rfl⟩

/-- C3: parsing `"1 + 2"` with the expression entry point yields a
binary-operation node with left the literal `1`, operator `+`, right the
literal `2`, and generating code from that node returns exactly
`"1 + 2"`. -/
theorem parse_one_plus_two :
    parseExpression "1 + 2" = .some exprOnePlusTwo
    ∧ exprOnePlusTwo =
        .binop "" "" (.integer "" "" "1") (.addOp " " "") (.integer " " "" "2")
    ∧ gen exprOnePlusTwo = "1 + 2" :=
  ⟨rfl, rfl, rfl⟩

/-- C4: from a parsed stub tree for `def f(x: int) -> str: ...` and a
parsed source tree for `def f(x): return x` (body on its own indented
line), the collector/transformer pair that copies parameters and return
annotation by qualified name-path generates exactly
`"def f(x: int) -> str:\n    return x"`, the untouched body's formatting
preserved verbatim. -/
theorem annotate_stub_scenario :
    annotateTypes "def f(x: int) -> str: ..." "def f(x):\n    return x"
      = .some "def f(x: int) -> str:\n    return x" := rfl

/-- C5: `deep_equals` is a recursive structural comparison: two distinct
tree instances from independent parses of identical source are
`deep_equals`-equal yet not identical, and `deep_equals` returns `false`
whenever the generated text of the two trees differs. -/
theorem deep_equals_spec :
    (∀ (S : String) (id₁ id₂ : Nat) (a b : Allocated), id₁ ≠ id₂ →
        parseInstance S id₁ = .some a → parseInstance S id₂ = .some b →
        deep_equals a.tree b.tree = true ∧ identical a b = false)
    ∧ (∀ x y : Node, gen x ≠ gen y → deep_equals x y = false) := by
  constructor
  · intro S id₁ id₂ a b hne ha hb
    unfold parseInstance at ha hb
    cases hm : parseModule S with
    | none =>
      rw [hm] at ha
      exact absurd ha (by simp)
    | some n =>
      rw [hm] at ha hb
      simp only [Option.some.injEq] at ha hb
      subst ha; subst hb
      exact ⟨by simp [deep_equals], by simp [identical, hne]⟩
  · intro x y hg
    cases hde : deep_equals x y with
    | false => rfl
    | true => exact absurd (congrArg gen ((deep_equals_iff x y).1 hde)) hg

theorem deep_equals_spec_witness :
    parseInstance "1 + 2" 0 = .some ⟨moduleOnePlusTwo, 0⟩
    ∧ parseInstance "1 + 2" 1 = .some ⟨moduleOnePlusTwo, 1⟩
    ∧ (deep_equals moduleOnePlusTwo moduleOnePlusTwo = true
        ∧ identical ⟨moduleOnePlusTwo, 0⟩ ⟨moduleOnePlusTwo, 1⟩ = false) :=
  ⟨rfl, rfl, deep_equals_spec.1 "1 + 2" 0 1 _ _ (by decide) rfl rfl⟩

/-- C6: when an enter hook signals "do not descend" on a node, no enter or
exit hook fires for any node nested inside it — the trace holds exactly the
node's own enter and exit, so its exit hook fires exactly once — and the
leave hook receives the node with its children unchanged. -/
theorem early_stop (σ : Type) (t : Transformer σ) (s s₁ : σ) (n : Node)
    (h : t.enter s n = (s₁, Option.some false)) :
    visitNode t s n =
      ((t.leave s₁ n n).1, (t.leave s₁ n n).2, [Event.enter n, Event.exit n]) := by
  obtain ⟨k, hk⟩ := visitNode_eq_step t s n
  rw [hk, step_stop h]

theorem early_stop_witness :
    stopAll.enter () probeFn = ((), Option.some false)
    ∧ visitNode stopAll () probeFn =
        ((), probeFn, [Event.enter probeFn, Event.exit probeFn]) :=
  ⟨rfl, by
    rw [early_stop Unit stopAll () () probeFn rfl]
    rfl⟩

/-- C7: for every node and every set of field overrides valid for its kind,
`with_changes` returns a new node of the same kind in which exactly the
overridden fields are replaced and every other field keeps the original's
value: the kind and the leading/trailing laws hold generally, empty
overrides give back the node unchanged, and for each of the fourteen node
kinds the result is fully characterized field by field; the original node,
being an immutable value, is unchanged. -/
theorem with_changes_spec :
    (∀ (n : Node) (c : Changes), kindOf (with_changes n c) = kindOf n)
    ∧ (∀ (n : Node) (c : Changes), leadOf (with_changes n c) = c.lead.getD (leadOf n))
    ∧ (∀ (n : Node) (c : Changes), trailOf (with_changes n c) = c.trail.getD (trailOf n))
    ∧ (∀ n : Node, with_changes n Changes.empty = n)
    ∧ (∀ (c : Changes) (l t v : String),
        with_changes (.name l t v) c =
          .name (c.lead.getD l) (c.trail.getD t) (c.value.getD v))
    ∧ (∀ (c : Changes) (l t v : String),
        with_changes (.integer l t v) c =
          .integer (c.lead.getD l) (c.trail.getD t) (c.value.getD v))
    ∧ (∀ (c : Changes) (l t : String),
        with_changes (.addOp l t) c = .addOp (c.lead.getD l) (c.trail.getD t))
    ∧ (∀ (c : Changes) (l t : String) (a op b : Node),
        with_changes (.binop l t a op b) c =
          .binop (c.lead.getD l) (c.trail.getD t) (c.left.getD a) (c.op.getD op)
            (c.right.getD b))
    ∧ (∀ (c : Changes) (l t m : String) (e : Node),
        with_changes (.annot l t m e) c =
          .annot (c.lead.getD l) (c.trail.getD t) (c.marker.getD m) (c.expr.getD e))
    ∧ (∀ (c : Changes) (l t : String),
        with_changes (.commaTok l t) c = .commaTok (c.lead.getD l) (c.trail.getD t))
    ∧ (∀ (c : Changes) (l t : String) (nm : Node) (an cm : ONode),
        with_changes (.param l t nm an cm) c =
          .param (c.lead.getD l) (c.trail.getD t) (c.nm.getD nm) (c.ann.getD an)
            (c.comma.getD cm))
    ∧ (∀ (c : Changes) (l t : String) (items : NodeList),
        with_changes (.parameters l t items) c =
          .parameters (c.lead.getD l) (c.trail.getD t) (c.items.getD items))
    ∧ (∀ (c : Changes) (l t : String) (v : ONode),
        with_changes (.returnStmt l t v) c =
          .returnStmt (c.lead.getD l) (c.trail.getD t) (c.retValue.getD v))
    ∧ (∀ (c : Changes) (l t : String),
        with_changes (.ellipsisLit l t) c = .ellipsisLit (c.lead.getD l) (c.trail.getD t))
    ∧ (∀ (c : Changes) (l t : String) (ss : NodeList),
        with_changes (.block l t ss) c =
          .block (c.lead.getD l) (c.trail.getD t) (c.stmts.getD ss))
    ∧ (∀ (c : Changes) (l t : String) (nm ps : Node) (r : ONode) (b : Node),
        with_changes (.functionDef l t nm ps r b) c =
          .functionDef (c.lead.getD l) (c.trail.getD t) (c.nm.getD nm)
            (c.params.getD ps) (c.returns.getD r) (c.body.getD b))
    ∧ (∀ (c : Changes) (l t : String) (nm b : Node),
        with_changes (.classDef l t nm b) c =
          .classDef (c.lead.getD l) (c.trail.getD t) (c.nm.getD nm) (c.body.getD b))
    ∧ (∀ (c : Changes) (l t : String) (ss : NodeList),
        with_changes (.module l t ss) c =
          .module (c.lead.getD l) (c.trail.getD t) (c.stmts.getD ss)) := by
  refine ⟨?_, ?_, ?_, ?_,
    fun _ _ _ _ => rfl, fun _ _ _ _ => rfl, fun _ _ _ => rfl,
    fun _ _ _ _ _ _ => rfl, fun _ _ _ _ _ => rfl, fun _ _ _ => rfl,
    fun _ _ _ _ _ _ => rfl, fun _ _ _ _ => rfl, fun _ _ _ _ => rfl,
    fun _ _ _ => rfl, fun _ _ _ _ => rfl, fun _ _ _ _ _ _ _ => rfl,
    fun _ _ _ _ _ => rfl, fun _ _ _ _ => rfl⟩
  · intro n c
    cases n <;> rfl
  · intro n c
    cases n <;> rfl
  · intro n c
    cases n <;> rfl
  · intro n
    cases n <;> simp [with_changes, Changes.empty]

/-- C8: a hook failure propagates immediately and aborts the traversal —
the engine catches nothing, performs no partial reconstruction (no tree is
returned on failure), and, the engine being a pure function of an immutable
tree, the caller's previous tree is untouched. -/
theorem hook_failure_aborts (σ ε : Type) (t : TransformerE σ ε) (s : σ)
    (n : Node) (e : ε) :
    (t.enter s n = .error e → visitNodeE t s n = .error e)
    ∧ (∀ rest, visitNodeE t s n = .error e →
        visitListE t s (.cons n rest) = .error e)
    ∧ (visitNodeE t s n = .error e → ∀ p, visitNodeE t s n ≠ .ok p) := by
  refine ⟨?_, ?_, ?_⟩
  · intro h
    obtain ⟨k, hk⟩ := visitNodeE_eq_stepE t s n
    rw [hk]
    simp [stepE, h]
  · intro rest h
    simp [visitListE, h]
  · intro h p hp
    rw [h] at hp
    exact Except.noConfusion hp

theorem hook_failure_aborts_witness :
    failingHooks.enter () exprOnePlusTwo = .error 7
    ∧ visitNodeE failingHooks () exprOnePlusTwo = .error 7 :=
  ⟨rfl, (hook_failure_aborts Unit Nat failingHooks () exprOnePlusTwo 7).1 rfl⟩

/-- C9: applying a transformer whose hooks never replace a node yields a
tree `deep_equals`-equal to the input — identity is the default when the
leave hook does not intervene. -/
theorem noop_transform (σ : Type) (t : Transformer σ)
    (hlv : ∀ s o u, (t.leave s o u).2 = u) (s : σ) (T : Node) :
    deep_equals (visitNode t s T).2.1 T = true := by
  rw [noopN t hlv s T]
  simp [deep_equals]

theorem noop_transform_witness :
    (∀ (s : Unit) (o u : Node), (identityTransformer.leave s o u).2 = u)
    ∧ deep_equals (visitNode identityTransformer () exprOnePlusTwo).2.1
        exprOnePlusTwo = true :=
  ⟨fun _ _ _ => rfl,
   noop_transform Unit identityTransformer (fun _ _ _ => rfl) () exprOnePlusTwo⟩

/-- C10: an enter hook returning no value permits descent while returning
`false` suppresses it: `probeVisitor`'s class-definition enter hook returns
no value, yet the function-definition hooks fire for the nested function;
its function-definition enter hook returns `false`, so no hook fires for
anything inside the function, whose exit hook still fires exactly once. -/
theorem descend_signals :
    probeVisitor.enter () probeClass = ((), Option.none)
    ∧ probeVisitor.enter () probeFn = ((), Option.some false)
    ∧ (visitNode probeVisitor () probeClass).2.2 =
        [Event.enter probeClass, Event.enter (.name " " "" "C"),
         Event.exit (.name " " "" "C"),
         Event.enter (.block "" "" (.cons probeFn .nil)),
         Event.enter probeFn, Event.exit probeFn,
         Event.exit (.block "" "" (.cons probeFn .nil)), Event.exit probeClass]
    ∧ Event.enter probeFn ∈ (visitNode probeVisitor () probeClass).2.2
    ∧ (visitNode probeVisitor () probeClass).2.2.count (Event.exit probeFn) = 1
    ∧ Event.enter probeRet ∉ (visitNode probeVisitor () probeClass).2.2
    ∧ Event.exit probeRet ∉ (visitNode probeVisitor () probeClass).2.2 := by
  refine ⟨rfl, rfl, rfl, ?_, ?_, ?_, ?_⟩ <;> decide

end LibCST
